import Mathlib

/-!
Verification of the Axelar amplifier Solana relayer-discovery protocol
(the wire codec, account resolver, instruction materializer, resolution
loop and funding calculator of the relayer discovery design) and of the
generated gateway TypeScript bindings.

Bytes are modelled as natural numbers; validity predicates bound them
below 256 where the byte width matters.  Borsh layout: booleans are one
byte (0 or 1), sequences are a little-endian 32-bit length prefix
followed by the elements, tagged unions are a one-byte discriminant in
declaration order followed by the payload, fixed-size byte arrays are
verbatim.
-/

namespace RelayerDiscovery

/-! ## Wire codec primitives -/

/-- Borsh encoding of a boolean: a single byte, 0 for false and 1 for true. -/
def encodeBool (b : Bool) : List Nat :=
  [if b then 1 else 0]

/-- Decode a Borsh boolean.  Only the bytes 0 and 1 are accepted. -/
def decodeBool : List Nat → Option (Bool × List Nat)
  | 0 :: rest => some (false, rest)
  | 1 :: rest => some (true, rest)
  | _ => none

/-- Borsh encoding of an unsigned 32-bit integer: four little-endian bytes. -/
def encodeU32 (n : Nat) : List Nat :=
  [n % 256, n / 256 % 256, n / 65536 % 256, n / 16777216 % 256]

/-- Decode a little-endian unsigned 32-bit integer from four bytes. -/
def decodeU32 : List Nat → Option (Nat × List Nat)
  | b0 :: b1 :: b2 :: b3 :: rest =>
      some (b0 + 256 * b1 + 65536 * b2 + 16777216 * b3, rest)
  | _ => none

/-- Borsh encoding of an unsigned 64-bit integer: eight little-endian bytes. -/
def encodeU64 (n : Nat) : List Nat :=
  [n % 256, n / 256 % 256, n / 65536 % 256, n / 16777216 % 256,
   n / 4294967296 % 256, n / 1099511627776 % 256,
   n / 281474976710656 % 256, n / 72057594037927936 % 256]

/-- Decode a little-endian unsigned 64-bit integer from eight bytes. -/
def decodeU64 : List Nat → Option (Nat × List Nat)
  | b0 :: b1 :: b2 :: b3 :: b4 :: b5 :: b6 :: b7 :: rest =>
      some (b0 + 256 * b1 + 65536 * b2 + 16777216 * b3
              + 4294967296 * b4 + 1099511627776 * b5
              + 281474976710656 * b6 + 72057594037927936 * b7, rest)
  | _ => none

/-- Read exactly `n` bytes from the input; fails when fewer remain. -/
def decodeBytesN : Nat → List Nat → Option (List Nat × List Nat)
  | 0, bs => some ([], bs)
  | _ + 1, [] => none
  | n + 1, b :: bs =>
      match decodeBytesN n bs with
      | some (xs, rest) => some (b :: xs, rest)
      | none => none

/-- Borsh encoding of a sequence: 32-bit length prefix, then the elements. -/
def encodeVec (enc : α → List Nat) (xs : List α) : List Nat :=
  encodeU32 xs.length ++ (xs.map enc).flatten

/-- Decode exactly `n` consecutive elements, threading the unconsumed tail. -/
def decodeListN (dec : List Nat → Option (α × List Nat)) :
    Nat → List Nat → Option (List α × List Nat)
  | 0, bs => some ([], bs)
  | n + 1, bs =>
      match dec bs with
      | none => none
      | some (x, rest) =>
          match decodeListN dec n rest with
          | none => none
          | some (xs, rest2) => some (x :: xs, rest2)

/-- Decode a Borsh sequence: read the 32-bit length prefix, then that many
elements. -/
def decodeVec (dec : List Nat → Option (α × List Nat)) (bs : List Nat) :
    Option (List α × List Nat) :=
  match decodeU32 bs with
  | none => none
  | some (n, rest) => decodeListN dec n rest

/-- Decode a Borsh byte vector: a 32-bit length prefix followed by raw bytes. -/
def decodeByteVec (bs : List Nat) : Option (List Nat × List Nat) :=
  match decodeU32 bs with
  | none => none
  | some (n, rest) => decodeBytesN n rest

/-! ## Data model

Transcribed from the `RelayerTransaction` declarations of the relayer
discovery design document (`Vec` of account references in an
instruction, per the usage in the examples and the spec). -/

/-- A Solana account reference: 32-byte public key plus signer and
writable flags.  Borsh layout: the key verbatim, then two boolean
bytes. -/
structure AccountMeta where
  pubkey : List Nat
  isSigner : Bool
  isWritable : Bool
  deriving DecidableEq, Repr

/-- Wire enum `RelayerAccount` (spec name `AbstractAccountRef`):
discriminants in declaration order, 0 = Account (Fixed),
1 = IncomingMessage, 2 = MessagePayload, 3 = Payer. -/
inductive RelayerAccount where
  | account (meta : AccountMeta)
  | incomingMessage
  | messagePayload
  | payer (amount : Nat)
  deriving DecidableEq, Repr

/-- Wire enum `RelayerData` (spec name `AbstractDataChunk`):
discriminants 0 = Bytes, 1 = Message. -/
inductive RelayerData where
  | bytes (raw : List Nat)
  | message
  deriving DecidableEq, Repr

/-- Wire struct `RelayerInstruction` (spec name `AbstractInstruction`):
a 32-byte program id, then the account references, then the data
chunks, each as a Borsh sequence. -/
structure RelayerInstruction where
  program : List Nat
  accounts : List RelayerAccount
  data : List RelayerData
  deriving DecidableEq, Repr

/-- Wire struct `RelayerTransaction` (spec name `DiscoveryDescriptor`):
a boolean terminal flag, then the instruction sequence. -/
structure RelayerTransaction where
  is_final : Bool
  instructions : List RelayerInstruction
  deriving DecidableEq, Repr

/-! ## Encoders -/

/-- Encode an `AccountMeta`: public key verbatim, then the two flags. -/
def encodeAccountMeta (m : AccountMeta) : List Nat :=
  m.pubkey ++ encodeBool m.isSigner ++ encodeBool m.isWritable

/-- Encode a `RelayerAccount`: one-byte discriminant, then the payload. -/
def encodeRelayerAccount : RelayerAccount → List Nat
  | .account m => 0 :: encodeAccountMeta m
  | .incomingMessage => [1]
  | .messagePayload => [2]
  | .payer amount => 3 :: encodeU64 amount

/-- Encode a `RelayerData` chunk: one-byte discriminant, then for `Bytes`
a length-prefixed byte vector. -/
def encodeRelayerData : RelayerData → List Nat
  | .bytes raw => 0 :: (encodeU32 raw.length ++ raw)
  | .message => [1]

/-- Encode a `RelayerInstruction`: program id, account sequence, data
sequence. -/
def encodeRelayerInstruction (i : RelayerInstruction) : List Nat :=
  i.program ++ encodeVec encodeRelayerAccount i.accounts
    ++ encodeVec encodeRelayerData i.data

/-- Encode a `RelayerTransaction`: the terminal flag, then the
instruction sequence. -/
def encodeRelayerTransaction (t : RelayerTransaction) : List Nat :=
  encodeBool t.is_final ++ encodeVec encodeRelayerInstruction t.instructions

/-! ## Decoders -/

/-- Decode an `AccountMeta`: 32 bytes of key, then two boolean bytes. -/
def decodeAccountMeta (bs : List Nat) : Option (AccountMeta × List Nat) :=
  match decodeBytesN 32 bs with
  | none => none
  | some (pk, rest) =>
      match decodeBool rest with
      | none => none
      | some (s, rest2) =>
          match decodeBool rest2 with
          | none => none
          | some (w, rest3) => some (⟨pk, s, w⟩, rest3)

/-- Decode a `RelayerAccount`.  Discriminants above 3 are rejected. -/
def decodeRelayerAccount : List Nat → Option (RelayerAccount × List Nat)
  | 0 :: rest =>
      match decodeAccountMeta rest with
      | none => none
      | some (m, r) => some (.account m, r)
  | 1 :: rest => some (.incomingMessage, rest)
  | 2 :: rest => some (.messagePayload, rest)
  | 3 :: rest =>
      match decodeU64 rest with
      | none => none
      | some (amount, r) => some (.payer amount, r)
  | _ => none

/-- Decode a `RelayerData` chunk.  Discriminants above 1 are rejected. -/
def decodeRelayerData : List Nat → Option (RelayerData × List Nat)
  | 0 :: rest =>
      match decodeByteVec rest with
      | none => none
      | some (raw, r) => some (.bytes raw, r)
  | 1 :: rest => some (.message, rest)
  | _ => none

/-- Decode a `RelayerInstruction`. -/
def decodeRelayerInstruction (bs : List Nat) :
    Option (RelayerInstruction × List Nat) :=
  match decodeBytesN 32 bs with
  | none => none
  | some (prog, rest) =>
      match decodeVec decodeRelayerAccount rest with
      | none => none
      | some (accs, rest2) =>
          match decodeVec decodeRelayerData rest2 with
          | none => none
          | some (ds, rest3) => some (⟨prog, accs, ds⟩, rest3)

/-- Decode a `RelayerTransaction`, returning the unconsumed tail. -/
def decodeRelayerTransaction (bs : List Nat) :
    Option (RelayerTransaction × List Nat) :=
  match decodeBool bs with
  | none => none
  | some (fin, rest) =>
      match decodeVec decodeRelayerInstruction rest with
      | none => none
      | some (ins, rest2) => some (⟨fin, ins⟩, rest2)

/-- Top-level decode: the whole input must be consumed. -/
def decode (bs : List Nat) : Option RelayerTransaction :=
  match decodeRelayerTransaction bs with
  | some (t, []) => some t
  | _ => none

/-! ## Validity

A value is valid when every byte fits in 8 bits, every fixed-size key
has length 32, every sequence length fits the 32-bit prefix and every
`Payer` amount fits 64 bits. -/

/-- All entries are bytes, below 256. -/
def bytesValid (bs : List Nat) : Bool :=
  bs.all fun b => decide (b < 256)

/-- A valid public key: exactly 32 bytes. -/
def pubkeyValid (pk : List Nat) : Bool :=
  decide (pk.length = 32) && bytesValid pk

/-- Validity of an `AccountMeta`. -/
def accountMetaValid (m : AccountMeta) : Bool :=
  pubkeyValid m.pubkey

/-- Validity of a `RelayerAccount`. -/
def relayerAccountValid : RelayerAccount → Bool
  | .account m => accountMetaValid m
  | .incomingMessage => true
  | .messagePayload => true
  | .payer amount => decide (amount < 18446744073709551616)

/-- Validity of a `RelayerData` chunk. -/
def relayerDataValid : RelayerData → Bool
  | .bytes raw => bytesValid raw && decide (raw.length < 4294967296)
  | .message => true

/-- Validity of a `RelayerInstruction`. -/
def relayerInstructionValid (i : RelayerInstruction) : Bool :=
  pubkeyValid i.program
    && decide (i.accounts.length < 4294967296)
    && i.accounts.all relayerAccountValid
    && decide (i.data.length < 4294967296)
    && i.data.all relayerDataValid

/-- Validity of a `RelayerTransaction`. -/
def relayerTransactionValid (t : RelayerTransaction) : Bool :=
  decide (t.instructions.length < 4294967296)
    && t.instructions.all relayerInstructionValid

/-! ## Account resolution and instruction materialization

Modelled from the spec: the resolver and materializer are described in
the design document conversion rules (each account entry is either a
hardcoded account, the incoming-message pda, the message-payload pda or
the payer with the specified lamports; data is the in-order
concatenation of the chunks, with `Message` contributing the Borsh
serialized message) and in the spec sections on the Account Resolver
and Instruction Materializer; the executable resolver code itself is
not part of the repository sources. -/

/-- Caller-supplied context for one resolution attempt: the payer
handle, the incoming-message handle, the message-payload handle and the
cross-chain message being relayed. -/
structure CrossChainId where
  chain : List Nat
  id : List Nat
  deriving DecidableEq, Repr

/-- The cross-chain message fields named by the design document. -/
structure Message where
  ccId : CrossChainId
  sourceAddress : List Nat
  destinationChain : List Nat
  destinationAddress : List Nat
  payloadHash : List Nat
  deriving DecidableEq, Repr

/-- Borsh serialization of the message: strings as length-prefixed byte
sequences, the payload hash verbatim as a fixed-size array. -/
def encodeMessage (m : Message) : List Nat :=
  (encodeU32 m.ccId.chain.length ++ m.ccId.chain)
    ++ (encodeU32 m.ccId.id.length ++ m.ccId.id)
    ++ (encodeU32 m.sourceAddress.length ++ m.sourceAddress)
    ++ (encodeU32 m.destinationChain.length ++ m.destinationChain)
    ++ (encodeU32 m.destinationAddress.length ++ m.destinationAddress)
    ++ m.payloadHash

/-- Modelled from the spec: the `ResolutionContext` of the Account
Resolver, holding the payer handle, the handles for the approved
incoming message and its payload, and the message being relayed. -/
structure ResolutionContext where
  payer : List Nat
  incomingMessagePda : List Nat
  messagePayloadPda : List Nat
  message : Message
  deriving DecidableEq, Repr

/-- Modelled from the spec: resolve one abstract account reference.
`Account` passes through verbatim; `IncomingMessage` and
`MessagePayload` substitute the context handles with role-fixed flags;
`Payer` returns the context payer as signer and writable together with
the lamport amount it records into the attempt accumulator (0 for the
other variants). -/
def resolveAccount (ctx : ResolutionContext) :
    RelayerAccount → AccountMeta × Nat
  | .account m => (m, 0)
  | .incomingMessage => (⟨ctx.incomingMessagePda, false, true⟩, 0)
  | .messagePayload => (⟨ctx.messagePayloadPda, false, false⟩, 0)
  | .payer amount => (⟨ctx.payer, true, true⟩, amount)

/-- Resolve a list of account references in order, threading the
accumulated requested lamports through the attempt. -/
def resolveAccounts (ctx : ResolutionContext) :
    List RelayerAccount → Nat → List AccountMeta × Nat
  | [], acc => ([], acc)
  | a :: rest, acc =>
      ((resolveAccount ctx a).1 ::
        (resolveAccounts ctx rest (acc + (resolveAccount ctx a).2)).1,
       (resolveAccounts ctx rest (acc + (resolveAccount ctx a).2)).2)

/-- Modelled from the spec: serialize one data chunk — `Bytes`
contributes its raw bytes, `Message` the Borsh serialized message being
relayed. -/
def serializeChunk (ctx : ResolutionContext) : RelayerData → List Nat
  | .bytes raw => raw
  | .message => encodeMessage ctx.message

/-- Concatenate the serialized data chunks in declared order. -/
def materializeData (ctx : ResolutionContext) : List RelayerData → List Nat
  | [] => []
  | c :: rest => serializeChunk ctx c ++ materializeData ctx rest

/-- A concrete, submittable instruction. -/
structure Instruction where
  programId : List Nat
  accounts : List AccountMeta
  data : List Nat
  deriving DecidableEq, Repr

/-- Modelled from the spec: materialize one abstract instruction,
resolving every account in order and concatenating the serialized data
chunks in order, threading the funding accumulator. -/
def materializeInstruction (ctx : ResolutionContext)
    (i : RelayerInstruction) (acc : Nat) : Instruction × Nat :=
  (⟨i.program, (resolveAccounts ctx i.accounts acc).1,
     materializeData ctx i.data⟩,
   (resolveAccounts ctx i.accounts acc).2)

/-- Materialize every instruction of a descriptor in order, threading
the funding accumulator, starting from 0 for a fresh attempt. -/
def materializeInstructions (ctx : ResolutionContext) :
    List RelayerInstruction → Nat → List Instruction × Nat
  | [], acc => ([], acc)
  | i :: rest, acc =>
      ((materializeInstruction ctx i acc).1 ::
        (materializeInstructions ctx rest
          (materializeInstruction ctx i acc).2).1,
       (materializeInstructions ctx rest
          (materializeInstruction ctx i acc).2).2)

/-- The lamport amount a single reference requests from the payer. -/
def payerAmount : RelayerAccount → Nat
  | .payer amount => amount
  | _ => 0

/-- The total lamports requested by the `Payer` references of one
instruction. -/
def sumPayerAmounts (l : List RelayerAccount) : Nat :=
  (l.map payerAmount).sum

/-- The total lamports requested across a whole descriptor. -/
def totalRequested (t : RelayerTransaction) : Nat :=
  (t.instructions.map fun i => sumPayerAmounts i.accounts).sum

/-! ## Resolution loop

Modelled from the spec: the relayer loop simulates and re-decodes until
a descriptor is final; the spec layers a configured maximum round count
on top because the chain itself carries no termination guarantee.  A
chain is modelled as the sequence of descriptors the fetch and the
successive simulations yield; the round counter increments on every
decoded descriptor. -/

/-- Outcome of a resolution attempt at the descriptor level. -/
inductive ResolutionOutcome where
  | finalReached (d : RelayerTransaction) (rounds : Nat)
  | maxRoundsExceeded
  deriving DecidableEq, Repr

/-- Run the loop from descriptor index `idx` with `budget` rounds left:
decoding descriptor `idx` is round `idx + 1`; a final descriptor stops
the loop, a non-final one costs a round and continues. -/
def resolveRounds (chain : Nat → RelayerTransaction) :
    Nat → Nat → ResolutionOutcome
  | 0, _ => .maxRoundsExceeded
  | budget + 1, idx =>
      if (chain idx).is_final then .finalReached (chain idx) (idx + 1)
      else resolveRounds chain budget (idx + 1)

/-- Modelled from the spec: the resolution loop with a configured
maximum round count. -/
def resolveLoop (chain : Nat → RelayerTransaction) (maxRounds : Nat) :
    ResolutionOutcome :=
  resolveRounds chain maxRounds 0

/-! ## Funding calculator

Modelled from the spec: the Funding Calculator receives the accumulated
`Payer` amounts of the final descriptor and the gas budget allotted to
the message; it fails with `FundingMismatch` when the requested total
exceeds the budget, and otherwise transfers exactly the shortfall so
the payer holds exactly the requested total immediately before
execution, which then consumes it. -/

/-- Result of funding and executing a final descriptor. -/
inductive AttemptResult where
  | fundingMismatch
  | executed (transferred payerBeforeExecution payerAfterExecution : Nat)
  deriving DecidableEq, Repr

/-- Modelled from the spec: fund the payer and execute.  `requested` is
the accumulated `Payer` total of the final descriptor. -/
def fundAndExecute (requested gasBudget payerBalance : Nat) : AttemptResult :=
  if gasBudget < requested then .fundingMismatch
  else
    let shortfall := requested - payerBalance
    let funded := payerBalance + shortfall
    .executed shortfall funded (funded - requested)

/-! ## Descriptor address derivation

The design document fixes the single seed
keccak256 of the ASCII string relayer-discovery-transaction, whose
32-byte value it spells out; the derivation itself is the external
Solana `find_program_address`, modelled as an opaque parameter. -/

/-- The fixed seed constant `TRANSACTION_PDA_SEED` from the design
document. -/
def TRANSACTION_PDA_SEED : List Nat :=
  [0xa5, 0x71, 0x28, 0x34, 0x91, 0x32, 0xc5, 0x8c,
   0x57, 0x00, 0x67, 0x41, 0x95, 0xdf, 0x81, 0xef,
   0x5e, 0xe8, 0x9b, 0xc3, 0x6f, 0x0e, 0x96, 0x76,
   0xba, 0xe7, 0xe1, 0x47, 0x9b, 0x7f, 0xce, 0xde]

/-- Modelled from the spec: derive the descriptor address for a
program.  `findProgramAddress` stands for the external Solana
derivation, a function of the seed list and the program id; the
descriptor derivation passes the single fixed seed and nothing else. -/
def transactionPda (findProgramAddress :
      List (List Nat) → List Nat → List Nat × Nat)
    (programId : List Nat) : List Nat × Nat :=
  findProgramAddress [TRANSACTION_PDA_SEED] programId

/-! ## Example values

Concrete values used to exercise the definitions: a descriptor covering
every account-reference and data-chunk variant, a resolution context,
and a descriptor chain of two non-final rounds followed by a final
one. -/

/-- A concrete 32-byte public key. -/
def examplePubkey : List Nat := List.replicate 32 7

/-- A concrete instruction using every reference and chunk variant. -/
def exampleInstruction : RelayerInstruction :=
  { program := List.replicate 32 9
    accounts := [.account ⟨List.replicate 32 1, true, false⟩,
                 .payer 1000, .incomingMessage, .messagePayload]
    data := [.bytes [9], .message] }

/-- A concrete final descriptor with one instruction. -/
def exampleTx : RelayerTransaction :=
  { is_final := true, instructions := [exampleInstruction] }

/-- A concrete resolution context. -/
def exampleCtx : ResolutionContext :=
  { payer := List.replicate 32 2
    incomingMessagePda := List.replicate 32 3
    messagePayloadPda := List.replicate 32 4
    message :=
      { ccId := { chain := [65], id := [66] }
        sourceAddress := [67]
        destinationChain := [68]
        destinationAddress := [69]
        payloadHash := List.replicate 32 5 } }

/-- A chain of two non-final descriptors followed by final ones. -/
def exampleChain : Nat → RelayerTransaction :=
  fun i => if i < 2 then ⟨false, []⟩ else ⟨true, []⟩

end RelayerDiscovery

namespace GatewayBindings

/-! ## Generated TypeScript bindings of the gateway

Shallow embedding of `src/bindings/generated/axelar-solana-gateway`:
the events coder and the program constructor. -/

/-- Placeholder for a decoded Anchor event; the gateway program defines
none, so no value of this embedding is ever produced. -/
structure GatewayEvent where
  name : String
  payload : List Nat
  deriving DecidableEq, Repr

/-- `AxelarSolanaGatewayEventsCoder.decode` from `coder/events.ts`: it
unconditionally throws, modelled as an `Except` error carrying the
thrown message. -/
def axelarSolanaGatewayEventsCoderDecode (_log : String) :
    Except String (Option GatewayEvent) :=
  Except.error "AxelarSolanaGateway program does not have events"

/-- The fixed program id constant from `program.ts`. -/
def AXELAR_SOLANA_GATEWAY_PROGRAM_ID : String :=
  "gtwLjHAsfKAR6GWB4hzTUAA1w4SDdFMKamtGA5ttMEe"

/-- The optional parameters of `axelarSolanaGatewayProgram`, generic in
the provider type. -/
structure GetProgramParams (P : Type) where
  programId : Option String
  provider : Option P

/-- The constructed `Program` value: the id and provider it was given. -/
structure ProgramModel (P : Type) where
  programId : String
  provider : Option P

/-- `axelarSolanaGatewayProgram` from `program.ts`: the program id is
`params?.programId ?? AXELAR_SOLANA_GATEWAY_PROGRAM_ID`, the provider
is `params?.provider`. -/
def axelarSolanaGatewayProgram {P : Type}
    (params : Option (GetProgramParams P)) : ProgramModel P :=
  { programId :=
      (params.bind fun p => p.programId).getD AXELAR_SOLANA_GATEWAY_PROGRAM_ID
    provider := params.bind fun p => p.provider }

end GatewayBindings

namespace RelayerDiscovery

/-! ## Round-trip lemmas -/

/-- Booleans round-trip, tail preserved. -/
theorem decodeBool_encodeBool (b : Bool) (rest : List Nat) :
    decodeBool (encodeBool b ++ rest) = some (b, rest) := by
  cases b <;> rfl

/-- Unsigned 32-bit integers round-trip, tail preserved. -/
theorem decodeU32_encodeU32 (n : Nat) (h : n < 4294967296) (rest : List Nat) :
    decodeU32 (encodeU32 n ++ rest) = some (n, rest) := by
  have hn : n % 256 + 256 * (n / 256 % 256) + 65536 * (n / 65536 % 256)
      + 16777216 * (n / 16777216 % 256) = n := by omega
  simp only [encodeU32, List.cons_append, List.nil_append, decodeU32, hn]

/-- Unsigned 64-bit integers round-trip, tail preserved. -/
theorem decodeU64_encodeU64 (n : Nat) (h : n < 18446744073709551616)
    (rest : List Nat) :
    decodeU64 (encodeU64 n ++ rest) = some (n, rest) := by
  have hn : n % 256 + 256 * (n / 256 % 256) + 65536 * (n / 65536 % 256)
      + 16777216 * (n / 16777216 % 256)
      + 4294967296 * (n / 4294967296 % 256)
      + 1099511627776 * (n / 1099511627776 % 256)
      + 281474976710656 * (n / 281474976710656 % 256)
      + 72057594037927936 * (n / 72057594037927936 % 256) = n := by omega
  simp only [encodeU64, List.cons_append, List.nil_append, decodeU64, hn]

/-- Reading back exactly the bytes that were written, tail preserved. -/
theorem decodeBytesN_append (xs rest : List Nat) :
    decodeBytesN xs.length (xs ++ rest) = some (xs, rest) := by
  induction xs with
  | nil => rfl
  | cons b bs ih => simp [decodeBytesN, ih]

/-- Element sequences round-trip: encoding a list and decoding exactly its
length returns it, tail preserved. -/
theorem decodeListN_encode {α : Type} (dec : List Nat → Option (α × List Nat))
    (enc : α → List Nat) (xs : List α)
    (hdec : ∀ x ∈ xs, ∀ rest, dec (enc x ++ rest) = some (x, rest))
    (rest : List Nat) :
    decodeListN dec xs.length ((xs.map enc).flatten ++ rest) = some (xs, rest) := by
  induction xs generalizing rest with
  | nil => simp [decodeListN]
  | cons x xs ih =>
      simp only [List.map_cons, List.flatten_cons, List.length_cons, decodeListN,
        List.append_assoc, hdec x (List.mem_cons_self x xs),
        ih (fun y hy => hdec y (List.mem_cons_of_mem x hy))]

/-- Borsh sequences round-trip when the length fits the 32-bit prefix. -/
theorem decodeVec_encodeVec {α : Type} (dec : List Nat → Option (α × List Nat))
    (enc : α → List Nat) (xs : List α)
    (hlen : xs.length < 4294967296)
    (hdec : ∀ x ∈ xs, ∀ rest, dec (enc x ++ rest) = some (x, rest))
    (rest : List Nat) :
    decodeVec dec (encodeVec enc xs ++ rest) = some (xs, rest) := by
  unfold encodeVec decodeVec
  rw [List.append_assoc, decodeU32_encodeU32 _ hlen]
  exact decodeListN_encode dec enc xs hdec rest

/-- Account references round-trip, tail preserved. -/
theorem decodeAccountMeta_encode (m : AccountMeta)
    (h : accountMetaValid m = true) (rest : List Nat) :
    decodeAccountMeta (encodeAccountMeta m ++ rest) = some (m, rest) := by
  have hlen : m.pubkey.length = 32 := by
    simp only [accountMetaValid, pubkeyValid, Bool.and_eq_true,
      decide_eq_true_eq] at h
    exact h.1
  unfold encodeAccountMeta decodeAccountMeta
  rw [List.append_assoc, List.append_assoc, ← hlen]
  simp only [decodeBytesN_append, decodeBool_encodeBool]

/-- `RelayerAccount` values round-trip, tail preserved. -/
theorem decodeRelayerAccount_encode (a : RelayerAccount)
    (h : relayerAccountValid a = true) (rest : List Nat) :
    decodeRelayerAccount (encodeRelayerAccount a ++ rest) = some (a, rest) := by
  cases a with
  | account m =>
      simp only [relayerAccountValid] at h
      simp only [encodeRelayerAccount, List.cons_append, decodeRelayerAccount,
        decodeAccountMeta_encode m h rest]
  | incomingMessage => rfl
  | messagePayload => rfl
  | payer amount =>
      simp only [relayerAccountValid, decide_eq_true_eq] at h
      simp only [encodeRelayerAccount, List.cons_append, decodeRelayerAccount,
        decodeU64_encodeU64 amount h rest]

/-- `RelayerData` chunks round-trip, tail preserved. -/
theorem decodeRelayerData_encode (d : RelayerData)
    (h : relayerDataValid d = true) (rest : List Nat) :
    decodeRelayerData (encodeRelayerData d ++ rest) = some (d, rest) := by
  cases d with
  | bytes raw =>
      simp only [relayerDataValid, Bool.and_eq_true, decide_eq_true_eq] at h
      simp only [encodeRelayerData, List.cons_append, decodeRelayerData,
        decodeByteVec, List.append_assoc, decodeU32_encodeU32 _ h.2,
        decodeBytesN_append]
  | message => rfl

/-- `RelayerInstruction` values round-trip, tail preserved. -/
theorem decodeRelayerInstruction_encode (i : RelayerInstruction)
    (h : relayerInstructionValid i = true) (rest : List Nat) :
    decodeRelayerInstruction (encodeRelayerInstruction i ++ rest)
      = some (i, rest) := by
  simp only [relayerInstructionValid, pubkeyValid, Bool.and_eq_true,
    decide_eq_true_eq, List.all_eq_true] at h
  obtain ⟨⟨⟨⟨⟨hpk32, _⟩, haclen⟩, hacc⟩, hdlen⟩, hdata⟩ := h
  unfold encodeRelayerInstruction decodeRelayerInstruction
  rw [List.append_assoc, List.append_assoc, ← hpk32]
  simp only [decodeBytesN_append,
    decodeVec_encodeVec _ _ _ haclen
      (fun a ha => decodeRelayerAccount_encode a (hacc a ha)),
    decodeVec_encodeVec _ _ _ hdlen
      (fun d hd => decodeRelayerData_encode d (hdata d hd))]

/-- `RelayerTransaction` values round-trip, tail preserved. -/
theorem decodeRelayerTransaction_encode (t : RelayerTransaction)
    (h : relayerTransactionValid t = true) (rest : List Nat) :
    decodeRelayerTransaction (encodeRelayerTransaction t ++ rest)
      = some (t, rest) := by
  simp only [relayerTransactionValid, Bool.and_eq_true, decide_eq_true_eq,
    List.all_eq_true] at h
  unfold encodeRelayerTransaction decodeRelayerTransaction
  rw [List.append_assoc]
  simp only [decodeBool_encodeBool,
    decodeVec_encodeVec _ _ _ h.1
      (fun i hi => decodeRelayerInstruction_encode i (h.2 i hi))]

/-- Top-level round-trip through the full-consumption decoder. -/
theorem decode_encode (t : RelayerTransaction)
    (h : relayerTransactionValid t = true) :
    decode (encodeRelayerTransaction t) = some t := by
  unfold decode
  have := decodeRelayerTransaction_encode t h []
  rw [List.append_nil] at this
  rw [this]


/-! ## Extension lemmas

Each decoder inspects only the prefix it consumes: a successful parse
survives appending extra bytes, with the tail extended accordingly.
These lemmas drive the truncation analysis. -/

/-- Appending bytes after a successful boolean parse changes only the tail. -/
theorem decodeBool_extend {bs s : List Nat} {b : Bool} {r : List Nat}
    (h : decodeBool bs = some (b, r)) :
    decodeBool (bs ++ s) = some (b, r ++ s) := by
  rcases bs with _ | ⟨b0, rest⟩
  · simp [decodeBool] at h
  rcases b0 with _ | _ | b0
  · simp only [decodeBool, Option.some.injEq, Prod.mk.injEq] at h
    simp only [List.cons_append, decodeBool, Option.some.injEq, Prod.mk.injEq]
    exact ⟨h.1, by rw [h.2]⟩
  · simp only [decodeBool, Option.some.injEq, Prod.mk.injEq] at h
    simp only [List.cons_append, decodeBool, Option.some.injEq, Prod.mk.injEq]
    exact ⟨h.1, by rw [h.2]⟩
  · simp [decodeBool] at h

/-- Appending bytes after a successful u32 parse changes only the tail. -/
theorem decodeU32_extend {bs s : List Nat} {n : Nat} {r : List Nat}
    (h : decodeU32 bs = some (n, r)) :
    decodeU32 (bs ++ s) = some (n, r ++ s) := by
  rcases bs with _ | ⟨b0, _ | ⟨b1, _ | ⟨b2, _ | ⟨b3, tl⟩⟩⟩⟩ <;>
    [skip; skip; skip; skip;
     (simp only [decodeU32, Option.some.injEq, Prod.mk.injEq] at h
      simp only [List.cons_append, decodeU32, Option.some.injEq, Prod.mk.injEq]
      exact ⟨h.1, by rw [h.2]⟩)] <;>
    simp [decodeU32] at h

/-- Appending bytes after a successful u64 parse changes only the tail. -/
theorem decodeU64_extend {bs s : List Nat} {n : Nat} {r : List Nat}
    (h : decodeU64 bs = some (n, r)) :
    decodeU64 (bs ++ s) = some (n, r ++ s) := by
  rcases bs with _ | ⟨b0, _ | ⟨b1, _ | ⟨b2, _ | ⟨b3, _ | ⟨b4, _ | ⟨b5,
    _ | ⟨b6, _ | ⟨b7, tl⟩⟩⟩⟩⟩⟩⟩⟩ <;>
    [skip; skip; skip; skip; skip; skip; skip; skip;
     (simp only [decodeU64, Option.some.injEq, Prod.mk.injEq] at h
      simp only [List.cons_append, decodeU64, Option.some.injEq, Prod.mk.injEq]
      exact ⟨h.1, by rw [h.2]⟩)] <;>
    simp [decodeU64] at h

/-- Appending bytes after a successful fixed-size read changes only the tail. -/
theorem decodeBytesN_extend : ∀ {n : Nat} {bs s xs r : List Nat},
    decodeBytesN n bs = some (xs, r) →
    decodeBytesN n (bs ++ s) = some (xs, r ++ s) := by
  intro n
  induction n with
  | zero =>
      intro bs s xs r h
      simp only [decodeBytesN, Option.some.injEq, Prod.mk.injEq] at h
      simp only [decodeBytesN, Option.some.injEq, Prod.mk.injEq]
      exact ⟨h.1, by rw [h.2]⟩
  | succ n ih =>
      intro bs s xs r h
      rcases bs with _ | ⟨b, rest⟩
      · simp [decodeBytesN] at h
      simp only [decodeBytesN, List.cons_append, List.append_eq] at h ⊢
      cases heq : decodeBytesN n rest with
      | none => simp [heq] at h
      | some pr =>
          obtain ⟨ys, r2⟩ := pr
          simp only [heq, Option.some.injEq, Prod.mk.injEq] at h
          simp only [ih heq, Option.some.injEq, Prod.mk.injEq]
          exact ⟨by rw [h.1], by rw [h.2]⟩

/-- Appending bytes after a successful counted-element parse changes only
the tail, provided the element decoder has the same property. -/
theorem decodeListN_extend {α : Type} {dec : List Nat → Option (α × List Nat)}
    (hdec : ∀ {bs s : List Nat} {x : α} {r : List Nat},
      dec bs = some (x, r) → dec (bs ++ s) = some (x, r ++ s)) :
    ∀ {n : Nat} {bs s : List Nat} {xs : List α} {r : List Nat},
    decodeListN dec n bs = some (xs, r) →
    decodeListN dec n (bs ++ s) = some (xs, r ++ s) := by
  intro n
  induction n with
  | zero =>
      intro bs s xs r h
      simp only [decodeListN, Option.some.injEq, Prod.mk.injEq] at h
      simp only [decodeListN, Option.some.injEq, Prod.mk.injEq]
      exact ⟨h.1, by rw [h.2]⟩
  | succ n ih =>
      intro bs s xs r h
      simp only [decodeListN] at h ⊢
      cases heq : dec bs with
      | none => simp [heq] at h
      | some pr =>
          obtain ⟨x, rest⟩ := pr
          simp only [heq] at h
          simp only [hdec heq]
          cases heq2 : decodeListN dec n rest with
          | none => simp [heq2] at h
          | some pr2 =>
              obtain ⟨ys, r2⟩ := pr2
              simp only [heq2, Option.some.injEq, Prod.mk.injEq] at h
              simp only [ih heq2, Option.some.injEq, Prod.mk.injEq]
              exact ⟨by rw [h.1], by rw [h.2]⟩

/-- Appending bytes after a successful sequence parse changes only the tail. -/
theorem decodeVec_extend {α : Type} {dec : List Nat → Option (α × List Nat)}
    (hdec : ∀ {bs s : List Nat} {x : α} {r : List Nat},
      dec bs = some (x, r) → dec (bs ++ s) = some (x, r ++ s))
    {bs s : List Nat} {xs : List α} {r : List Nat}
    (h : decodeVec dec bs = some (xs, r)) :
    decodeVec dec (bs ++ s) = some (xs, r ++ s) := by
  unfold decodeVec at h ⊢
  cases heq : decodeU32 bs with
  | none => simp [heq] at h
  | some pr =>
      obtain ⟨n, rest⟩ := pr
      simp only [heq] at h
      simp only [decodeU32_extend heq]
      exact decodeListN_extend hdec h

/-- Appending bytes after a successful byte-vector parse changes only the
tail. -/
theorem decodeByteVec_extend {bs s xs r : List Nat}
    (h : decodeByteVec bs = some (xs, r)) :
    decodeByteVec (bs ++ s) = some (xs, r ++ s) := by
  unfold decodeByteVec at h ⊢
  cases heq : decodeU32 bs with
  | none => simp [heq] at h
  | some pr =>
      obtain ⟨n, rest⟩ := pr
      simp only [heq] at h
      simp only [decodeU32_extend heq]
      exact decodeBytesN_extend h

/-- Appending bytes after a successful `AccountMeta` parse changes only
the tail. -/
theorem decodeAccountMeta_extend {bs s : List Nat} {m : AccountMeta}
    {r : List Nat} (h : decodeAccountMeta bs = some (m, r)) :
    decodeAccountMeta (bs ++ s) = some (m, r ++ s) := by
  unfold decodeAccountMeta at h ⊢
  cases h1 : decodeBytesN 32 bs with
  | none => simp [h1] at h
  | some pr1 =>
      obtain ⟨pk, r1⟩ := pr1
      simp only [h1] at h
      cases h2 : decodeBool r1 with
      | none => simp [h2] at h
      | some pr2 =>
          obtain ⟨sg, r2⟩ := pr2
          simp only [h2] at h
          cases h3 : decodeBool r2 with
          | none => simp [h3] at h
          | some pr3 =>
              obtain ⟨wr, r3⟩ := pr3
              simp only [h3, Option.some.injEq, Prod.mk.injEq] at h
              simp only [decodeBytesN_extend h1, decodeBool_extend h2,
                decodeBool_extend h3, Option.some.injEq, Prod.mk.injEq]
              exact ⟨h.1, by rw [h.2]⟩

/-- Appending bytes after a successful `RelayerAccount` parse changes only
the tail. -/
theorem decodeRelayerAccount_extend {bs s : List Nat} {a : RelayerAccount}
    {r : List Nat} (h : decodeRelayerAccount bs = some (a, r)) :
    decodeRelayerAccount (bs ++ s) = some (a, r ++ s) := by
  rcases bs with _ | ⟨d, rest⟩
  · simp [decodeRelayerAccount] at h
  rcases d with _ | _ | _ | _ | d
  · simp only [decodeRelayerAccount, List.cons_append, List.append_eq] at h ⊢
    cases heq : decodeAccountMeta rest with
    | none => simp [heq] at h
    | some pr =>
        obtain ⟨m, r1⟩ := pr
        simp only [heq, Option.some.injEq, Prod.mk.injEq] at h
        simp only [decodeAccountMeta_extend heq, Option.some.injEq,
          Prod.mk.injEq]
        exact ⟨h.1, by rw [h.2]⟩
  · simp only [decodeRelayerAccount, Option.some.injEq, Prod.mk.injEq] at h
    simp only [List.cons_append, decodeRelayerAccount, Option.some.injEq,
      Prod.mk.injEq]
    exact ⟨h.1, by rw [h.2]⟩
  · simp only [decodeRelayerAccount, Option.some.injEq, Prod.mk.injEq] at h
    simp only [List.cons_append, decodeRelayerAccount, Option.some.injEq,
      Prod.mk.injEq]
    exact ⟨h.1, by rw [h.2]⟩
  · simp only [decodeRelayerAccount, List.cons_append, List.append_eq] at h ⊢
    cases heq : decodeU64 rest with
    | none => simp [heq] at h
    | some pr =>
        obtain ⟨amount, r1⟩ := pr
        simp only [heq, Option.some.injEq, Prod.mk.injEq] at h
        simp only [decodeU64_extend heq, Option.some.injEq, Prod.mk.injEq]
        exact ⟨h.1, by rw [h.2]⟩
  · simp [decodeRelayerAccount] at h

/-- Appending bytes after a successful `RelayerData` parse changes only
the tail. -/
theorem decodeRelayerData_extend {bs s : List Nat} {d : RelayerData}
    {r : List Nat} (h : decodeRelayerData bs = some (d, r)) :
    decodeRelayerData (bs ++ s) = some (d, r ++ s) := by
  rcases bs with _ | ⟨b0, rest⟩
  · simp [decodeRelayerData] at h
  rcases b0 with _ | _ | b0
  · simp only [decodeRelayerData, List.cons_append, List.append_eq] at h ⊢
    cases heq : decodeByteVec rest with
    | none => simp [heq] at h
    | some pr =>
        obtain ⟨raw, r1⟩ := pr
        simp only [heq, Option.some.injEq, Prod.mk.injEq] at h
        simp only [decodeByteVec_extend heq, Option.some.injEq, Prod.mk.injEq]
        exact ⟨h.1, by rw [h.2]⟩
  · simp only [decodeRelayerData, Option.some.injEq, Prod.mk.injEq] at h
    simp only [List.cons_append, decodeRelayerData, Option.some.injEq,
      Prod.mk.injEq]
    exact ⟨h.1, by rw [h.2]⟩
  · simp [decodeRelayerData] at h

/-- Appending bytes after a successful `RelayerInstruction` parse changes
only the tail. -/
theorem decodeRelayerInstruction_extend {bs s : List Nat}
    {i : RelayerInstruction} {r : List Nat}
    (h : decodeRelayerInstruction bs = some (i, r)) :
    decodeRelayerInstruction (bs ++ s) = some (i, r ++ s) := by
  unfold decodeRelayerInstruction at h ⊢
  cases h1 : decodeBytesN 32 bs with
  | none => simp [h1] at h
  | some pr1 =>
      obtain ⟨prog, r1⟩ := pr1
      simp only [h1] at h
      cases h2 : decodeVec decodeRelayerAccount r1 with
      | none => simp [h2] at h
      | some pr2 =>
          obtain ⟨accs, r2⟩ := pr2
          simp only [h2] at h
          cases h3 : decodeVec decodeRelayerData r2 with
          | none => simp [h3] at h
          | some pr3 =>
              obtain ⟨ds, r3⟩ := pr3
              simp only [h3, Option.some.injEq, Prod.mk.injEq] at h
              simp only [decodeBytesN_extend h1,
                decodeVec_extend (fun hp => decodeRelayerAccount_extend hp) h2,
                decodeVec_extend (fun hp => decodeRelayerData_extend hp) h3,
                Option.some.injEq, Prod.mk.injEq]
              exact ⟨h.1, by rw [h.2]⟩

/-- Appending bytes after a successful `RelayerTransaction` parse changes
only the tail. -/
theorem decodeRelayerTransaction_extend {bs s : List Nat}
    {t : RelayerTransaction} {r : List Nat}
    (h : decodeRelayerTransaction bs = some (t, r)) :
    decodeRelayerTransaction (bs ++ s) = some (t, r ++ s) := by
  unfold decodeRelayerTransaction at h ⊢
  cases h1 : decodeBool bs with
  | none => simp [h1] at h
  | some pr1 =>
      obtain ⟨fin, r1⟩ := pr1
      simp only [h1] at h
      cases h2 : decodeVec decodeRelayerInstruction r1 with
      | none => simp [h2] at h
      | some pr2 =>
          obtain ⟨ins, r2⟩ := pr2
          simp only [h2, Option.some.injEq, Prod.mk.injEq] at h
          simp only [decodeBool_extend h1,
            decodeVec_extend (fun hp => decodeRelayerInstruction_extend hp) h2,
            Option.some.injEq, Prod.mk.injEq]
          exact ⟨h.1, by rw [h.2]⟩

/-! ## Failure lemmas -/

/-- Decoding any strict prefix of the encoding of a valid transaction
fails: the decoder either runs out of bytes or leaves a tail that a
full parse of the whole encoding would have consumed. -/
theorem decode_take_eq_none (t : RelayerTransaction)
    (h : relayerTransactionValid t = true) (n : Nat)
    (hn : n < (encodeRelayerTransaction t).length) :
    decode ((encodeRelayerTransaction t).take n) = none := by
  unfold decode
  cases heq : decodeRelayerTransaction ((encodeRelayerTransaction t).take n) with
  | none => rfl
  | some pr =>
      obtain ⟨u, r⟩ := pr
      exfalso
      have hext := decodeRelayerTransaction_extend
        (s := (encodeRelayerTransaction t).drop n) heq
      rw [List.take_append_drop] at hext
      have hrt := decodeRelayerTransaction_encode t h []
      rw [List.append_nil] at hrt
      rw [hrt] at hext
      simp only [Option.some.injEq, Prod.mk.injEq] at hext
      have hdrop : (encodeRelayerTransaction t).drop n = [] :=
        (List.append_eq_nil.mp hext.2.symm).2
      have hle : (encodeRelayerTransaction t).length ≤ n := by
        have := congrArg List.length hdrop
        simp only [List.length_drop, List.length_nil] at this
        omega
      omega

/-- An account-reference discriminant above 3 is rejected. -/
theorem decodeRelayerAccount_bad_discriminant (d : Nat) (hd : 3 < d)
    (rest : List Nat) : decodeRelayerAccount (d :: rest) = none := by
  obtain ⟨k, rfl⟩ : ∃ k, d = k + 4 := ⟨d - 4, by omega⟩
  rfl

/-- A data-chunk discriminant above 1 is rejected. -/
theorem decodeRelayerData_bad_discriminant (d : Nat) (hd : 1 < d)
    (rest : List Nat) : decodeRelayerData (d :: rest) = none := by
  obtain ⟨k, rfl⟩ : ∃ k, d = k + 2 := ⟨d - 2, by omega⟩
  rfl

/-- Reading more bytes than remain fails. -/
theorem decodeBytesN_short : ∀ {n : Nat} {bs : List Nat},
    bs.length < n → decodeBytesN n bs = none := by
  intro n
  induction n with
  | zero => intro bs h; exact absurd h (Nat.not_lt_zero _)
  | succ n ih =>
      intro bs h
      rcases bs with _ | ⟨b, rest⟩
      · rfl
      · simp only [List.length_cons] at h
        have hr : rest.length < n := by omega
        simp only [decodeBytesN, ih hr]

/-- A byte-vector length prefix exceeding the remaining input is
rejected. -/
theorem decodeByteVec_prefix_too_long (n : Nat) (hn : n < 4294967296)
    (bs : List Nat) (hlen : bs.length < n) :
    decodeByteVec (encodeU32 n ++ bs) = none := by
  unfold decodeByteVec
  simp only [decodeU32_encodeU32 n hn, decodeBytesN_short hlen]

/-! ### Resolver lemmas -/

/-- The amount a resolved reference records is the `Payer` amount. -/
theorem resolveAccount_amount (ctx : ResolutionContext) (a : RelayerAccount) :
    (resolveAccount ctx a).2 = payerAmount a := by
  cases a <;> rfl

/-- Account resolution preserves order: the resolved list is the in-order
image of the reference list. -/
theorem resolveAccounts_fst (ctx : ResolutionContext) :
    ∀ (l : List RelayerAccount) (acc : Nat),
    (resolveAccounts ctx l acc).1 = l.map fun a => (resolveAccount ctx a).1 := by
  intro l
  induction l with
  | nil => intro acc; rfl
  | cons a rest ih => intro acc; simp [resolveAccounts, ih]

/-- The accumulator threaded through account resolution collects exactly
the sum of the `Payer` amounts. -/
theorem resolveAccounts_snd (ctx : ResolutionContext) :
    ∀ (l : List RelayerAccount) (acc : Nat),
    (resolveAccounts ctx l acc).2 = acc + sumPayerAmounts l := by
  intro l
  induction l with
  | nil => intro acc; simp [resolveAccounts, sumPayerAmounts]
  | cons a rest ih =>
      intro acc
      simp only [resolveAccounts, ih, sumPayerAmounts, List.map_cons,
        List.sum_cons, resolveAccount_amount]
      omega

/-- Data materialization is the in-order concatenation of the chunk
serializations. -/
theorem materializeData_eq (ctx : ResolutionContext) (l : List RelayerData) :
    materializeData ctx l = (l.map (serializeChunk ctx)).flatten := by
  induction l with
  | nil => rfl
  | cons c rest ih => simp [materializeData, ih]

/-- The accumulator threaded through a whole descriptor collects exactly
the sum over its instructions of their `Payer` amounts. -/
theorem materializeInstructions_snd (ctx : ResolutionContext) :
    ∀ (l : List RelayerInstruction) (acc : Nat),
    (materializeInstructions ctx l acc).2
      = acc + (l.map fun i => sumPayerAmounts i.accounts).sum := by
  intro l
  induction l with
  | nil => intro acc; simp [materializeInstructions]
  | cons i rest ih =>
      intro acc
      simp only [materializeInstructions, ih, materializeInstruction,
        resolveAccounts_snd, List.map_cons, List.sum_cons]
      omega

/-! ### Loop lemmas -/

/-- Running from index `idx` with enough budget, a chain that is
non-final strictly below `N` and final at `N` stops at `N`, having
counted `N + 1` rounds. -/
theorem resolveRounds_final (chain : Nat → RelayerTransaction) (N : Nat)
    (hN : ∀ i, i < N → (chain i).is_final = false)
    (hfin : (chain N).is_final = true) :
    ∀ (budget idx : Nat), idx ≤ N → N + 1 ≤ idx + budget →
    resolveRounds chain budget idx = .finalReached (chain N) (N + 1) := by
  intro budget
  induction budget with
  | zero => intro idx h1 h2; omega
  | succ b ih =>
      intro idx h1 h2
      by_cases hidx : idx = N
      · subst hidx
        simp [resolveRounds, hfin]
      · have hlt : idx < N := by omega
        have hstep : resolveRounds chain (b + 1) idx
            = resolveRounds chain b (idx + 1) := by
          simp [resolveRounds, hN idx hlt]
        rw [hstep]
        exact ih (idx + 1) (by omega) (by omega)

/-- A chain that never turns final exhausts any budget. -/
theorem resolveRounds_never_final (chain : Nat → RelayerTransaction)
    (h : ∀ i, (chain i).is_final = false) :
    ∀ (budget idx : Nat),
    resolveRounds chain budget idx = .maxRoundsExceeded := by
  intro budget
  induction budget with
  | zero => intro idx; rfl
  | succ b ih => intro idx; simp [resolveRounds, h idx, ih]

end RelayerDiscovery

namespace RelayerDiscovery

/-! ## Claims about the relayer discovery protocol -/

/-- C1: for every valid `DiscoveryDescriptor` (`RelayerTransaction`)
value, decoding the bytes produced by encoding it yields the value
again, under the Borsh layout (booleans one byte, sequences a
little-endian 32-bit length prefix plus elements, tagged unions a
one-byte discriminant, fixed-size byte arrays verbatim). -/
theorem claim_descriptor_roundtrip (t : RelayerTransaction)
    (h : relayerTransactionValid t = true) :
    decode (encodeRelayerTransaction t) = some t :=
  decode_encode t h

/-- Witness for C1 at a concrete descriptor exercising every account
reference and data chunk variant. -/
theorem claim_descriptor_roundtrip_witness :
    relayerTransactionValid exampleTx = true ∧
    decode (encodeRelayerTransaction exampleTx) = some exampleTx :=
  ⟨by decide, claim_descriptor_roundtrip exampleTx (by decide)⟩

/-- C2: a chain of `N` non-final descriptors followed by a final one
resolves in exactly `N + 1` rounds and reaches the final descriptor,
and a chain that never turns final fails with `MaxRoundsExceeded`
instead of looping forever. -/
theorem claim_loop_termination (chain : Nat → RelayerTransaction)
    (N maxRounds : Nat) :
    ((∀ i, i < N → (chain i).is_final = false) →
      (chain N).is_final = true → N + 1 ≤ maxRounds →
      resolveLoop chain maxRounds = .finalReached (chain N) (N + 1)) ∧
    ((∀ i, (chain i).is_final = false) →
      resolveLoop chain maxRounds = .maxRoundsExceeded) :=
  ⟨fun h1 h2 h3 =>
     resolveRounds_final chain N h1 h2 maxRounds 0 (Nat.zero_le N) (by omega),
   fun h => resolveRounds_never_final chain h maxRounds 0⟩

/-- Witness for C2: a chain with two non-final rounds then a final one
resolves in three rounds under a budget of five, and an all-non-final
chain exhausts a budget of four. -/
theorem claim_loop_termination_witness :
    ((∀ i, i < 2 → (exampleChain i).is_final = false)
      ∧ (exampleChain 2).is_final = true ∧ 2 + 1 ≤ 5
      ∧ resolveLoop exampleChain 5 = .finalReached (exampleChain 2) (2 + 1)) ∧
    resolveLoop (fun _ => ⟨false, []⟩) 4 = .maxRoundsExceeded :=
  ⟨⟨by decide, by decide, by decide,
     (claim_loop_termination exampleChain 2 5).1 (by decide) (by decide)
       (by decide)⟩,
   (claim_loop_termination (fun _ => ⟨false, []⟩) 0 4).2 (fun _ => rfl)⟩

/-- C3: with the requested total taken from the accumulated `Payer`
amounts of the descriptor, a total above the gas budget fails with
`FundingMismatch` and no transfer occurs, and otherwise exactly the
shortfall `total - payerBalance` is transferred before execution, after
which the payer balance has decreased by exactly the requested sum. -/
theorem claim_funding_exactness (t : RelayerTransaction)
    (ctx : ResolutionContext) (gasBudget payerBalance : Nat) :
    (gasBudget < totalRequested t →
      fundAndExecute (materializeInstructions ctx t.instructions 0).2
        gasBudget payerBalance = .fundingMismatch) ∧
    (totalRequested t ≤ gasBudget →
      ∃ transferred before after,
        fundAndExecute (materializeInstructions ctx t.instructions 0).2
          gasBudget payerBalance = .executed transferred before after
        ∧ transferred = totalRequested t - payerBalance
        ∧ before - after = totalRequested t
        ∧ after = before - totalRequested t) := by
  have hacc : (materializeInstructions ctx t.instructions 0).2
      = totalRequested t := by
    rw [materializeInstructions_snd]
    simp [totalRequested]
  rw [hacc]
  unfold fundAndExecute
  constructor
  · intro h
    rw [if_pos h]
  · intro h
    rw [if_neg (by omega)]
    exact ⟨_, _, _, rfl, rfl, by omega, by omega⟩

/-- Witness for C3 at a concrete final descriptor requesting 1000
lamports, a payer balance of 400, and budgets of 2000 and 500. -/
theorem claim_funding_exactness_witness :
    (totalRequested exampleTx ≤ 2000 ∧
      ∃ transferred before after,
        fundAndExecute (materializeInstructions exampleCtx
            exampleTx.instructions 0).2 2000 400
          = .executed transferred before after
        ∧ transferred = totalRequested exampleTx - 400
        ∧ before - after = totalRequested exampleTx
        ∧ after = before - totalRequested exampleTx) ∧
    (500 < totalRequested exampleTx ∧
      fundAndExecute (materializeInstructions exampleCtx
          exampleTx.instructions 0).2 500 400 = .fundingMismatch) :=
  ⟨⟨by decide,
     (claim_funding_exactness exampleTx exampleCtx 2000 400).2 (by decide)⟩,
   ⟨by decide,
     (claim_funding_exactness exampleTx exampleCtx 500 400).1 (by decide)⟩⟩

/-- C4: materialization preserves order exactly — the resolved account
list is the in-order image of the abstract references (so the account
at each position is the resolution of the reference at that position),
the concrete data is the ordered concatenation of the chunk
serializations, and reordering chunks changes the result. -/
theorem claim_materialization_order (ctx : ResolutionContext)
    (i : RelayerInstruction) (acc : Nat) :
    ((materializeInstruction ctx i acc).1.accounts
        = i.accounts.map fun a => (resolveAccount ctx a).1) ∧
    (∀ k : Nat, (materializeInstruction ctx i acc).1.accounts[k]?
        = (i.accounts[k]?).map fun a => (resolveAccount ctx a).1) ∧
    ((materializeInstruction ctx i acc).1.data
        = (i.data.map (serializeChunk ctx)).flatten) ∧
    materializeData ctx [.bytes [9], .bytes [5]]
      ≠ materializeData ctx [.bytes [5], .bytes [9]] := by
  refine ⟨?_, ?_, ?_, ?_⟩
  · simp [materializeInstruction, resolveAccounts_fst]
  · intro k
    simp [materializeInstruction, resolveAccounts_fst, List.getElem?_map]
  · simp [materializeInstruction, materializeData_eq]
  · simp [materializeData, serializeChunk]

/-- C5: the descriptor address is derived from the program id and the
single fixed 32-byte seed constant (the keccak256 value spelled out in
the design document), never combined with any other seed component, and
the derivation is a pure function of its inputs. -/
theorem claim_pda_derivation
    (findProgramAddress : List (List Nat) → List Nat → List Nat × Nat)
    (p q : List Nat) (hpq : p = q) :
    transactionPda findProgramAddress p
      = findProgramAddress [TRANSACTION_PDA_SEED] p ∧
    transactionPda findProgramAddress p = transactionPda findProgramAddress q ∧
    TRANSACTION_PDA_SEED
      = [0xa5, 0x71, 0x28, 0x34, 0x91, 0x32, 0xc5, 0x8c,
         0x57, 0x00, 0x67, 0x41, 0x95, 0xdf, 0x81, 0xef,
         0x5e, 0xe8, 0x9b, 0xc3, 0x6f, 0x0e, 0x96, 0x76,
         0xba, 0xe7, 0xe1, 0x47, 0x9b, 0x7f, 0xce, 0xde] ∧
    TRANSACTION_PDA_SEED.length = 32 :=
  ⟨rfl, by rw [hpq], rfl, rfl⟩

/-- Witness for C5 at a concrete derivation function and program id. -/
theorem claim_pda_derivation_witness :
    examplePubkey = examplePubkey ∧
    transactionPda (fun seeds pid => (seeds.flatten ++ pid, 255)) examplePubkey
      = (fun seeds pid => (seeds.flatten ++ pid, 255))
          [TRANSACTION_PDA_SEED] examplePubkey :=
  ⟨rfl,
   (claim_pda_derivation (fun seeds pid => (seeds.flatten ++ pid, 255))
      examplePubkey examplePubkey rfl).1⟩

/-- C6: resolving `Payer(amount)` returns the context payer handle with
the signer and writable flags both set and records the amount into the
attempt accumulator; the accumulator over any reference list is the sum
of its `Payer` amounts, and over a whole descriptor the accumulated
requirement is the single total of all `Payer` amounts. -/
theorem claim_payer_resolution (ctx : ResolutionContext) (amount : Nat)
    (t : RelayerTransaction) :
    resolveAccount ctx (.payer amount) = (⟨ctx.payer, true, true⟩, amount) ∧
    (∀ (l : List RelayerAccount) (acc : Nat),
      (resolveAccounts ctx l acc).2 = acc + sumPayerAmounts l) ∧
    (materializeInstructions ctx t.instructions 0).2 = totalRequested t := by
  refine ⟨rfl, resolveAccounts_snd ctx, ?_⟩
  rw [materializeInstructions_snd]
  simp [totalRequested]

/-- C7: decode fails on truncated input (any strict prefix of a valid
encoding), on an unrecognized one-byte discriminant (above 3 for
account references, above 1 for data chunks), and on a length prefix
exceeding the remaining input. -/
theorem claim_decode_errors :
    (∀ t : RelayerTransaction, relayerTransactionValid t = true →
      ∀ n, n < (encodeRelayerTransaction t).length →
      decode ((encodeRelayerTransaction t).take n) = none) ∧
    (∀ (d : Nat) (rest : List Nat), 3 < d →
      decodeRelayerAccount (d :: rest) = none) ∧
    (∀ (d : Nat) (rest : List Nat), 1 < d →
      decodeRelayerData (d :: rest) = none) ∧
    (∀ (n : Nat) (bs : List Nat), n < 4294967296 → bs.length < n →
      decodeByteVec (encodeU32 n ++ bs) = none) :=
  ⟨fun t h n hn => decode_take_eq_none t h n hn,
   fun d rest hd => decodeRelayerAccount_bad_discriminant d hd rest,
   fun d rest hd => decodeRelayerData_bad_discriminant d hd rest,
   fun n bs hn hlen => decodeByteVec_prefix_too_long n hn bs hlen⟩

/-- Witness for C7: a truncated valid encoding, the discriminants 7 and
5, and a byte-vector length prefix of 2 over a single remaining byte. -/
theorem claim_decode_errors_witness :
    (relayerTransactionValid exampleTx = true
      ∧ 3 < (encodeRelayerTransaction exampleTx).length
      ∧ decode ((encodeRelayerTransaction exampleTx).take 3) = none) ∧
    (3 < 7 ∧ decodeRelayerAccount [7, 0] = none) ∧
    (1 < 5 ∧ decodeRelayerData [5] = none) ∧
    (2 < 4294967296 ∧ ([42] : List Nat).length < 2
      ∧ decodeByteVec (encodeU32 2 ++ [42]) = none) :=
  ⟨⟨by decide, by decide,
     claim_decode_errors.1 exampleTx (by decide) 3 (by decide)⟩,
   ⟨by decide, claim_decode_errors.2.1 7 [0] (by decide)⟩,
   ⟨by decide, claim_decode_errors.2.2.1 5 [] (by decide)⟩,
   ⟨by decide, by decide, claim_decode_errors.2.2.2 2 [42] (by decide)
     (by decide)⟩⟩

/-- C8 counterexample: the decoder accepts the five-byte input
consisting of a true flag and a zero instruction count and yields a
descriptor whose instruction sequence is empty, so decoding can yield a
descriptor with no instructions. -/
theorem claim_min_instructions_counterexample :
    decode [1, 0, 0, 0, 0]
      = some { is_final := true, instructions := [] } := by
  decide

/-- C8 (amended): the decoder does not enforce the at-least-one
instruction invariant — that requirement constrains well-formed
published descriptors; for every valid descriptor that does contain at
least one instruction, decoding its encoding yields a descriptor with
at least one instruction. -/
theorem claim_min_instructions_amended (t : RelayerTransaction)
    (hv : relayerTransactionValid t = true)
    (hne : t.instructions ≠ []) :
    ∃ u, decode (encodeRelayerTransaction t) = some u
      ∧ u.instructions ≠ [] :=
  ⟨t, decode_encode t hv, hne⟩

/-- Witness for the amended C8 at a concrete one-instruction
descriptor. -/
theorem claim_min_instructions_amended_witness :
    relayerTransactionValid exampleTx = true ∧ exampleTx.instructions ≠ [] ∧
    ∃ u, decode (encodeRelayerTransaction exampleTx) = some u
      ∧ u.instructions ≠ [] :=
  ⟨by decide, by decide,
   claim_min_instructions_amended exampleTx (by decide) (by decide)⟩

end RelayerDiscovery

namespace GatewayBindings

/-! ## Claims about the generated TypeScript bindings -/

/-- C9: for every input log string the gateway events coder decode
throws the fixed error and never returns an event, not even null. -/
theorem claim_events_coder_always_throws (log : String) :
    axelarSolanaGatewayEventsCoderDecode log
      = Except.error "AxelarSolanaGateway program does not have events" :=
  rfl

/-- C10: when the parameters are absent or carry no program id, the
program is constructed with the fixed gateway program id; a supplied
program id is used instead. -/
theorem claim_gateway_program_id {P : Type} :
    (∀ (pid : String) (prov : Option P),
      (axelarSolanaGatewayProgram (some ⟨some pid, prov⟩)).programId = pid) ∧
    (∀ prov : Option P,
      (axelarSolanaGatewayProgram (some ⟨none, prov⟩)).programId
        = AXELAR_SOLANA_GATEWAY_PROGRAM_ID) ∧
    (axelarSolanaGatewayProgram (P := P) none).programId
      = AXELAR_SOLANA_GATEWAY_PROGRAM_ID :=
  ⟨fun _ _ => rfl, fun _ => rfl, rfl⟩

end GatewayBindings
